import Mathlib

/-!
# Transcript Alignment Engine — shallow embedding

Embedding of the voicesharer transcript alignment engine:
the tokenizer and per-chapter alignment pipeline of
`TranscriptChatContent` (`normalize`, `tokenize`, `chapterTokensMap`) and the
utilities of the alignment module (`getWordsWithPunctuation`, `isCurrentToken`).

Modelling conventions:
* JavaScript strings are modelled as `List Char`;
* JavaScript numbers (playback times, timestamps) are modelled as `ℚ`;
* `undefined`-able fields (`start`, `end` of an aligned token) are `Option ℚ`;
* the external `diffWords` library call is modelled as a word-level
  longest-common-subsequence diff over the whitespace-re-split word strings,
  mirroring how the source joins normalized words with single spaces before
  diffing and counts words of each diff segment by re-splitting on whitespace.
-/

set_option maxHeartbeats 1000000

namespace VoiceSharer

/-- JavaScript whitespace characters relevant to `\s` / `String.prototype.trim`
(ASCII subset; the engine only ever feeds it text split on these). -/
def isWsChar (c : Char) : Bool :=
  c == ' ' || c == '\t' || c == '\n' || c == '\r' || c == '\x0b' || c == '\x0c'

/-- The punctuation character class `[.,?!;:"'()-]` used by both `normalize`
and `tokenize` in `TranscriptChatContent`. -/
def isPunctChar (c : Char) : Bool :=
  c == '.' || c == ',' || c == '?' || c == '!' || c == ';' || c == ':' ||
  c == '"' || c == '\'' || c == '(' || c == ')' || c == '-'

/-- The word character class `[a-zA-Z0-9']` of `tokenize`'s word extraction. -/
def isWordChar (c : Char) : Bool :=
  c.isAlphanum || c == '\''

/-- Model of `text.match(/\S+/g) || []`: the maximal runs of non-whitespace characters.
`cur` is the (reversed) run currently being accumulated. -/
def splitWsGo (cur : List Char) : List Char → List (List Char)
  | [] => if cur = [] then [] else [cur.reverse]
  | c :: cs =>
    if isWsChar c then
      if cur = [] then splitWsGo [] cs else cur.reverse :: splitWsGo [] cs
    else
      splitWsGo (c :: cur) cs

def splitWs (s : List Char) : List (List Char) :=
  splitWsGo [] s

/-- Model of `Array.prototype.join(' ')`: elements separated by single spaces. -/
def joinWords : List (List Char) → List Char
  | [] => []
  | [w] => w
  | w :: x :: ws => w ++ ' ' :: joinWords (x :: ws)

/-- Model of `String.prototype.trim` on a char list. -/
def trimList (s : List Char) : List Char :=
  ((s.dropWhile isWsChar).reverse.dropWhile isWsChar).reverse

/-- The `normalize` utility of `TranscriptChatContent`:
`word.toLowerCase().replace(/[.,?!;:"'()-]/g, '').trim()`. -/
def normalize (word : List Char) : List Char :=
  trimList ((word.map Char.toLower).filter (fun c => !isPunctChar c))

/-- Output unit of `tokenize`: `{ text, isPunctuation }`. -/
structure Token where
  text : List Char
  isPunctuation : Bool
  deriving DecidableEq, Repr

/-- First match of a `[class]+` regex: the first maximal run of characters
satisfying `p` (empty when no character matches). -/
def firstRun (p : Char → Bool) (s : List Char) : List Char :=
  (s.dropWhile (fun c => !p c)).takeWhile p

/-- Match of a `[class]+$` regex: the maximal suffix run of characters
satisfying `p` (empty when the last character does not match). -/
def suffixRun (p : Char → Bool) (s : List Char) : List Char :=
  (s.reverse.takeWhile p).reverse

/-- Body of `tokenize` for one `\S+` fragment: classify as pure punctuation,
plain word, or mixed; a mixed fragment is split into leading punctuation,
first word run, and trailing punctuation (the trailing run is kept only when
its match index is positive, mirroring the `trailMatch.index > 0` guard). -/
def tokenizePart (part : List Char) : List Token :=
  let normalized := normalize part
  if normalized = [] then
    [⟨part, true⟩]
  else if normalized = part.map Char.toLower then
    [⟨part, false⟩]
  else
    let lead := part.takeWhile isPunctChar
    let word := firstRun isWordChar part
    let trail := suffixRun isPunctChar part
    (if lead ≠ [] then [⟨lead, true⟩] else []) ++
    (if word ≠ [] then [⟨word, false⟩] else []) ++
    (if trail ≠ [] ∧ trail.length < part.length then [⟨trail, true⟩] else [])

/-- The `tokenize` utility of `TranscriptChatContent`. -/
def tokenize (text : List Char) : List Token :=
  (splitWs text).flatMap tokenizePart

/-- Spacing rule for re-joining tokens: a space before every token except
before a punctuation token (continuation after the first token). -/
def renderRest : List Token → List Char
  | [] => []
  | t :: ts => (if t.isPunctuation then [] else [' ']) ++ t.text ++ renderRest ts

/-- Join a token sequence back into text, inserting a space between tokens
everywhere except before a punctuation token. -/
def render : List Token → List Char
  | [] => []
  | t :: ts => t.text ++ renderRest ts

/-! ## Data model -/

/-- A `WordTimestamp`: one word of the speech engine's output. -/
structure WordTimestamp where
  word : List Char
  startTime : ℚ
  endTime : ℚ
  deriving DecidableEq, Repr

/-- A `Chapter`: a titled group of sentences with a time window. -/
structure Chapter where
  title : List Char
  sentences : List (List Char)
  startTime : ℚ
  endTime : ℚ
  deriving DecidableEq, Repr

/-- An `AlignedToken`: the engine's output unit (`{ text, start?, end?, isPunctuation }`). -/
structure AlignedToken where
  text : List Char
  start : Option ℚ := none
  «end» : Option ℚ := none
  isPunctuation : Bool := false
  deriving DecidableEq, Repr

/-! ## Kernel-reducible rational arithmetic

Core `Rat.add`/`Rat.sub`/`Rat.mul`/`Rat.div` are `@[irreducible]`, which
blocks kernel evaluation of concrete runs, so the engine is embedded with
the following reducible equivalents (`Rat.divInt` evaluates in the kernel);
`qadd_eq` … below identify them with the ordinary field operations. -/

def qadd (a b : ℚ) : ℚ :=
  Rat.divInt (a.num * (b.den : Int) + b.num * (a.den : Int)) ((a.den : Int) * (b.den : Int))

def qsub (a b : ℚ) : ℚ :=
  Rat.divInt (a.num * (b.den : Int) - b.num * (a.den : Int)) ((a.den : Int) * (b.den : Int))

def qdiv (a b : ℚ) : ℚ :=
  Rat.divInt (a.num * (b.den : Int)) ((a.den : Int) * b.num)

/-! ## Current-token locator (`isCurrentToken`) -/

/-- The 10 ms tolerance of `isCurrentToken`. -/
def EPSILON : ℚ := Rat.divInt 1 100

/-- JavaScript falsiness of `token.start` / `token.end`: `undefined` or `0`. -/
def jsFalsy : Option ℚ → Bool
  | none => true
  | some x => x == 0

/-- The `isCurrentToken` helper of the alignment module: guard
`token.isPunctuation || !token.start || !token.end`, then test
`currentTime >= start - EPSILON && currentTime < end - EPSILON`. -/
def isCurrentToken (currentTime : ℚ) (token : AlignedToken) : Bool :=
  if token.isPunctuation || jsFalsy token.start || jsFalsy token.«end» then
    false
  else
    match token.start, token.«end» with
    | some s, some e =>
      decide (currentTime ≥ qsub s EPSILON) && decide (currentTime < qsub e EPSILON)
    | _, _ => false

/-! ## `getWordsWithPunctuation` (full-transcript alignment utility) -/

/-- Class `\w` plus apostrophe: the word alternative `[\w']+` of the token regex. -/
def isWordChar2 (c : Char) : Bool :=
  c.isAlphanum || c == '_' || c == '\''

/-- The punctuation alternative `[.,!?;:"'…\-—]+` of the token regex. -/
def isPunct2Char (c : Char) : Bool :=
  c == '.' || c == ',' || c == '!' || c == '?' || c == ';' || c == ':' ||
  c == '"' || c == '\'' || c == '…' || c == '-' || c == '—'

/-- Global matching of `/[\w']+|[.,!?;:"'…\-—]+/g`: at each position take the
maximal word run if a word character starts here (the first alternative wins),
else the maximal punctuation run, else skip the character. Fuel-driven; each
step consumes at least one character, so `fuel = length` suffices. -/
def scanTokensGo : Nat → List Char → List (List Char)
  | 0, _ => []
  | _, [] => []
  | fuel + 1, c :: cs =>
    if isWordChar2 c then
      ((c :: cs).takeWhile isWordChar2) :: scanTokensGo fuel ((c :: cs).dropWhile isWordChar2)
    else if isPunct2Char c then
      ((c :: cs).takeWhile isPunct2Char) :: scanTokensGo fuel ((c :: cs).dropWhile isPunct2Char)
    else
      scanTokensGo fuel cs

def scanTokens (s : List Char) : List (List Char) :=
  scanTokensGo s.length s

/-- Model of `String.prototype.includes`: substring containment. -/
def isSubstr (needle : List Char) : List Char → Bool
  | [] => needle.isEmpty
  | c :: cs => needle.isPrefixOf (c :: cs) || isSubstr needle cs

/-- The matching loop of `getWordsWithPunctuation`: punctuation-only tokens
carry no timestamp; a word token is matched against the current timestamp
word (equality or containment either way, after lowercasing and trimming),
consuming the timestamp on success. -/
def getWordsWithPunctuationGo (wordTimestamps : List WordTimestamp) :
    List (List Char) → Nat → List AlignedToken
  | [], _ => []
  | textToken :: rest, timestampIndex =>
    if textToken.all isPunct2Char then
      ⟨textToken, none, none, true⟩ ::
        getWordsWithPunctuationGo wordTimestamps rest timestampIndex
    else
      match wordTimestamps.get? timestampIndex with
      | some wt =>
        let timestampWord := trimList (wt.word.map Char.toLower)
        let textWord := trimList (textToken.map Char.toLower)
        if timestampWord == textWord || isSubstr textWord timestampWord ||
            isSubstr timestampWord textWord then
          ⟨textToken, some wt.startTime, some wt.endTime, false⟩ ::
            getWordsWithPunctuationGo wordTimestamps rest (timestampIndex + 1)
        else
          ⟨textToken, none, none, false⟩ ::
            getWordsWithPunctuationGo wordTimestamps rest timestampIndex
      | none =>
        ⟨textToken, none, none, false⟩ ::
          getWordsWithPunctuationGo wordTimestamps rest timestampIndex

/-- The `getWordsWithPunctuation` utility of the alignment module. -/
def getWordsWithPunctuation (fullText : List Char)
    (wordTimestamps : List WordTimestamp) : List AlignedToken :=
  getWordsWithPunctuationGo wordTimestamps (scanTokens fullText) 0

/-! ## Word-level diff (model of the `diffWords` library call)

The source joins the normalized word lists with single spaces, calls the
`diff` package's `diffWords`, and then counts the words of each diff segment
by re-splitting `part.value` on whitespace and dropping empty fragments.
We model the diff as a word-level longest-common-subsequence diff over the
re-split word lists; `value` holds the segment's words directly. -/

/-- One segment of the word diff: `{ value, added, removed }`. -/
structure DiffPart where
  value : List (List Char)
  added : Bool
  removed : Bool
  deriving DecidableEq, Repr

/-- Number of words edited (added or removed) by a diff. -/
def diffCost (parts : List DiffPart) : Nat :=
  (parts.map (fun p => if p.added || p.removed then p.value.length else 0)).sum

/-- Fuel-driven minimal word diff (LCS-based): equal heads are matched,
otherwise the cheaper of remove-head / add-head is chosen. -/
def diffWordsGo (fuel : Nat) (as bs : List (List Char)) : List DiffPart :=
  match fuel with
  | 0 => []
  | fuel + 1 =>
    match as, bs with
    | [], [] => []
    | [], bs => [⟨bs, true, false⟩]
    | as, [] => [⟨as, false, true⟩]
    | a :: as', b :: bs' =>
      if a = b then
        ⟨[a], false, false⟩ :: diffWordsGo fuel as' bs'
      else
        let viaRem := ⟨[a], false, true⟩ :: diffWordsGo fuel as' (b :: bs')
        let viaAdd := ⟨[b], true, false⟩ :: diffWordsGo fuel (a :: as') bs'
        if diffCost viaRem ≤ diffCost viaAdd then viaRem else viaAdd

/-- Word-level diff of two word sequences. -/
def diffWords (as bs : List (List Char)) : List DiffPart :=
  diffWordsGo (as.length + bs.length) as bs

/-- Joining a word list with single spaces and re-splitting on whitespace:
the word lists seen by the diff (and whose segment word counts drive the
index bookkeeping of the mapping loop). -/
def resplit (ws : List (List Char)) : List (List Char) :=
  splitWs (joinWords ws)

/-! ## The mapping loop of `chapterTokensMap` -/

/-- The diff-consumption loop: builds the sparse
chapter-word-index → `{start, end}` mapping. Equal segments map `wordCount`
chapter positions to the speech positions `whisperWordIdx + i` (guarded by
`whisperWordIdx + i < relevantTimestamps.length`), removed segments advance
only the chapter counter, added segments advance only the speech counter. -/
def buildMapGo (relevant : List WordTimestamp) :
    Nat → Nat → List DiffPart → List (Nat × (ℚ × ℚ))
  | _, _, [] => []
  | cIdx, wIdx, part :: rest =>
    let n := part.value.length
    if !part.added && !part.removed then
      ((List.range n).filterMap (fun i =>
        match relevant.get? (wIdx + i) with
        | some wt => some (cIdx + i, (wt.startTime, wt.endTime))
        | none => none)) ++
      buildMapGo relevant (cIdx + n) (wIdx + n) rest
    else if part.removed then
      buildMapGo relevant (cIdx + n) wIdx rest
    else
      buildMapGo relevant cIdx (wIdx + n) rest

/-- Lookup in the chapter-word-index → timestamps mapping
(keys are strictly increasing, so first match = `Map.get`). -/
def lookupMap (m : List (Nat × (ℚ × ℚ))) (k : Nat) : Option (ℚ × ℚ) :=
  match m with
  | [] => none
  | (k', v) :: rest => if k' = k then some v else lookupMap rest k

/-- First pass of the result build: punctuation tokens carry no timestamps,
word tokens take timestamps from the mapping at their word counter. -/
def buildResult : List Token → List (Nat × (ℚ × ℚ)) → Nat → List AlignedToken
  | [], _, _ => []
  | t :: ts, m, wordCounter =>
    if t.isPunctuation then
      ⟨t.text, none, none, true⟩ :: buildResult ts m wordCounter
    else
      match lookupMap m wordCounter with
      | some (s, e) => ⟨t.text, some s, some e, false⟩ :: buildResult ts m (wordCounter + 1)
      | none => ⟨t.text, none, none, false⟩ :: buildResult ts m (wordCounter + 1)

/-! ## Interpolation pass (second pass of `chapterTokensMap`) -/

/-- Backward scan `for (j = i - 1; j >= 0; j--)`: the `end` of the nearest
prior non-punctuation token whose `end` is defined. `backScanGo res i`
inspects indices `i - 1, i - 2, …, 0`. -/
def backScanGo (res : List AlignedToken) : Nat → Option ℚ
  | 0 => none
  | j + 1 =>
    match res.get? j with
    | some u => if u.isPunctuation = false ∧ u.«end».isSome then u.«end» else backScanGo res j
    | none => backScanGo res j

/-- Forward scan `for (j = i + 1; j < result.length; j++)`: the `start` of
the nearest following non-punctuation token whose `start` is defined. -/
def fwdFind : List AlignedToken → Option ℚ
  | [] => none
  | u :: us => if u.isPunctuation = false ∧ u.start.isSome then u.start else fwdFind us

def fwdScan (res : List AlignedToken) (i : Nat) : Option ℚ :=
  fwdFind (res.drop (i + 1))

/-- Model of `Math.min` on rationals (kernel-reducible). -/
def ratMin (a b : ℚ) : ℚ := if a ≤ b then a else b

/-- Model of `Math.max` on rationals (kernel-reducible). -/
def ratMax (a b : ℚ) : ℚ := if a ≤ b then b else a

/-- One iteration of the interpolation loop at index `i`: a non-punctuation
token with `start === undefined` receives synthetic timestamps from its
scanned neighbors (`prevTime`/`nextTime`); otherwise the state is unchanged. -/
def interpAt (res : List AlignedToken) (i : Nat) : List AlignedToken :=
  match res.get? i with
  | none => res
  | some t =>
    if t.isPunctuation = false ∧ t.start = none then
      match backScanGo res i, fwdScan res i with
      | some prevTime, some nextTime =>
        let avgWordDuration := ratMin (qdiv (qsub nextTime prevTime) 2) (Rat.divInt 1 2)
        res.set i { t with start := some (qadd prevTime (Rat.divInt 1 20)),
                           «end» := some (qadd (qadd prevTime (Rat.divInt 1 20)) avgWordDuration) }
      | some prevTime, none =>
        res.set i { t with start := some (qadd prevTime (Rat.divInt 1 20)),
                           «end» := some (qadd (qadd prevTime (Rat.divInt 1 20)) (Rat.divInt 1 2)) }
      | none, some nextTime =>
        res.set i { t with start := some (ratMax 0 (qsub nextTime (Rat.divInt 11 20))),
                           «end» := some (qsub nextTime (Rat.divInt 1 20)) }
      | none, none => res
    else
      res

/-- The interpolation loop `for (i = 0; i < result.length; i++)`, as a
fuel-indexed iteration starting at index `start`. -/
def interpGo : Nat → Nat → List AlignedToken → List AlignedToken
  | 0, _, res => res
  | fuel + 1, i, res => interpGo fuel (i + 1) (interpAt res i)

/-- The whole second pass over a chapter's token array. -/
def interpPass (res : List AlignedToken) : List AlignedToken :=
  interpGo res.length 0 res

/-! ## Per-chapter alignment (`chapterTokensMap` body) -/

/-- Model of `chapter.sentences.join(' ')`. -/
def chapterText (ch : Chapter) : List Char :=
  joinWords ch.sentences

/-- The chapter-word-index → timestamps mapping built for one chapter:
filter the timestamps to the chapter's window (±2 s buffer), normalize both
word sequences, diff them, and run the consumption loop. -/
def chapterWordMap (ch : Chapter) (wordTimestamps : List WordTimestamp) :
    List (Nat × (ℚ × ℚ)) :=
  let chapterTokens := tokenize (chapterText ch)
  let relevant := wordTimestamps.filter (fun wt =>
    decide (wt.startTime ≥ qsub ch.startTime 2) && decide (wt.startTime ≤ qadd ch.endTime 2))
  let chapterWords := (chapterTokens.filter (fun t => !t.isPunctuation)).map
    (fun t => normalize t.text)
  let whisperWords := relevant.map (fun wt => normalize wt.word)
  let diff := diffWords (resplit chapterWords) (resplit whisperWords)
  buildMapGo relevant 0 0 diff

/-- The aligned token array of one chapter before the interpolation pass. -/
def alignPre (ch : Chapter) (wordTimestamps : List WordTimestamp) :
    List AlignedToken :=
  buildResult (tokenize (chapterText ch)) (chapterWordMap ch wordTimestamps) 0

/-- The `AlignedToken[]` stored in `chapterTokensMap` for one chapter:
tokenize, align via the diff, then interpolate missing timestamps.
The source's early return for an empty token array is kept. -/
def chapterAlignedTokens (ch : Chapter) (wordTimestamps : List WordTimestamp) :
    List AlignedToken :=
  if tokenize (chapterText ch) = [] then []
  else interpPass (alignPre ch wordTimestamps)

/-- The full `chapterTokensMap`: one aligned token array per chapter. -/
def chapterTokensMap (chapters : List Chapter) (wordTimestamps : List WordTimestamp) :
    List (List AlignedToken) :=
  chapters.map (fun ch => chapterAlignedTokens ch wordTimestamps)

/-- The chapter of the spec's worked interpolation example. -/
def exampleChapter : Chapter :=
  ⟨[], ["hello there world".toList], 0, Rat.divInt 7 5⟩

/-- The speech-engine words of the worked example: `"there"` is missing. -/
def exampleTimestamps : List WordTimestamp :=
  [⟨"hello".toList, 0, Rat.divInt 2 5⟩, ⟨"world".toList, 1, Rat.divInt 7 5⟩]

/-- Fragment shape under which the tokenizer round-trips: a nonempty
ASCII-alphanumeric word followed by an optional run of non-apostrophe
punctuation characters. -/
def goodFragment (f : List Char) : Prop :=
  ∃ w p, f = w ++ p ∧ w ≠ [] ∧ (∀ c ∈ w, c.isAlphanum = true) ∧
    (∀ c ∈ p, isPunctChar c = true ∧ c ≠ '\'')

/-- Spec-side reading of §4.2: the chapter-word-position / speech-word-position
pairs matched 1:1 by the equal segments of a diff; chapter-only segments
advance only the chapter counter, speech-only segments advance only the
speech counter. -/
def matchPairs : Nat → Nat → List DiffPart → List (Nat × Nat)
  | _, _, [] => []
  | cIdx, wIdx, part :: rest =>
    let n := part.value.length
    if !part.added && !part.removed then
      (List.range n).map (fun i => (cIdx + i, wIdx + i)) ++
        matchPairs (cIdx + n) (wIdx + n) rest
    else if part.removed then
      matchPairs (cIdx + n) wIdx rest
    else
      matchPairs cIdx (wIdx + n) rest

/-!
# Theorems
-/

/-! ## Bridges between the reducible arithmetic and the field operations -/

theorem qadd_eq (a b : ℚ) : qadd a b = a + b := by
  have ha : ((a.den : ℚ)) ≠ 0 := Nat.cast_ne_zero.mpr a.den_nz
  have hb : ((b.den : ℚ)) ≠ 0 := Nat.cast_ne_zero.mpr b.den_nz
  rw [qadd, Rat.divInt_eq_div]
  push_cast
  conv_rhs => rw [← Rat.num_div_den a, ← Rat.num_div_den b]
  rw [div_add_div _ _ ha hb]
  ring_nf

theorem qsub_eq (a b : ℚ) : qsub a b = a - b := by
  have ha : ((a.den : ℚ)) ≠ 0 := Nat.cast_ne_zero.mpr a.den_nz
  have hb : ((b.den : ℚ)) ≠ 0 := Nat.cast_ne_zero.mpr b.den_nz
  rw [qsub, Rat.divInt_eq_div]
  push_cast
  conv_rhs => rw [← Rat.num_div_den a, ← Rat.num_div_den b]
  rw [div_sub_div _ _ ha hb]
  ring_nf

theorem qdiv_eq (a b : ℚ) : qdiv a b = a / b := by
  rw [qdiv, Rat.divInt_eq_div]
  push_cast
  conv_rhs => rw [← Rat.num_div_den a, ← Rat.num_div_den b]
  rw [div_eq_mul_inv ((a.num : ℚ) / _), inv_div, div_mul_div_comm]

example : tokenize "hello .".toList = [⟨"hello".toList, false⟩, ⟨".".toList, true⟩] := by decide
example : render (tokenize "hello .".toList) = "hello.".toList := by decide
example : render (tokenize "Hello, world!".toList) = "Hello, world!".toList := by decide

/-! ## C1 — character-class facts -/

theorem alnum_not_ws {c : Char} (h : c.isAlphanum = true) : isWsChar c = false := by
  simp only [isWsChar, Bool.or_eq_false_iff, beq_eq_false_iff_ne, ne_eq, and_assoc]
  refine ⟨?_, ?_, ?_, ?_, ?_, ?_⟩ <;>
    (rintro rfl; exact absurd h (by decide))

theorem punct_enum {c : Char} (h : isPunctChar c = true) :
    c = '.' ∨ c = ',' ∨ c = '?' ∨ c = '!' ∨ c = ';' ∨ c = ':' ∨
    c = '"' ∨ c = '\'' ∨ c = '(' ∨ c = ')' ∨ c = '-' := by
  simpa only [isPunctChar, Bool.or_eq_true, beq_iff_eq, or_assoc] using h

theorem punct_not_ws {c : Char} (h : isPunctChar c = true) : isWsChar c = false := by
  rcases punct_enum h with rfl | rfl | rfl | rfl | rfl | rfl | rfl | rfl | rfl | rfl | rfl <;>
    decide

theorem punct_not_alnum {c : Char} (h : isPunctChar c = true) : c.isAlphanum = false := by
  rcases punct_enum h with rfl | rfl | rfl | rfl | rfl | rfl | rfl | rfl | rfl | rfl | rfl <;>
    decide

theorem punct_toLower_eq {c : Char} (h : isPunctChar c = true) : c.toLower = c := by
  rcases punct_enum h with rfl | rfl | rfl | rfl | rfl | rfl | rfl | rfl | rfl | rfl | rfl <;>
    decide

theorem alnum_not_punct {c : Char} (h : c.isAlphanum = true) : isPunctChar c = false := by
  cases hp : isPunctChar c with
  | false => rfl
  | true => rw [punct_not_alnum hp] at h; cases h

theorem alnum_isWordChar {c : Char} (h : c.isAlphanum = true) : isWordChar c = true := by
  simp [isWordChar, h]

theorem punct_not_wordChar {c : Char} (h : isPunctChar c = true) (h' : c ≠ '\'') :
    isWordChar c = false := by
  simp [isWordChar, punct_not_alnum h, h']

theorem toNat_ofNat_valid {m : Nat} (h : m.isValidChar) : (Char.ofNat m).toNat = m := by
  unfold Char.ofNat
  rw [dif_pos h]
  rfl

theorem ge97_not_punct {c : Char} (h : 97 ≤ c.toNat) : isPunctChar c = false := by
  simp only [isPunctChar, Bool.or_eq_false_iff, beq_eq_false_iff_ne, ne_eq, and_assoc]
  refine ⟨?_, ?_, ?_, ?_, ?_, ?_, ?_, ?_, ?_, ?_, ?_⟩ <;>
    (rintro rfl; exact absurd h (by decide))

theorem ge97_not_ws {c : Char} (h : 97 ≤ c.toNat) : isWsChar c = false := by
  simp only [isWsChar, Bool.or_eq_false_iff, beq_eq_false_iff_ne, ne_eq, and_assoc]
  refine ⟨?_, ?_, ?_, ?_, ?_, ?_⟩ <;>
    (rintro rfl; exact absurd h (by decide))

theorem isUpper_toNat {c : Char} (h : c.isUpper = true) :
    65 ≤ c.toNat ∧ c.toNat ≤ 90 := by
  simp only [Char.isUpper, Bool.and_eq_true, decide_eq_true_eq] at h
  exact ⟨h.1, h.2⟩

theorem toLower_toNat_of_isUpper {c : Char} (h : c.isUpper = true) :
    c.toLower.toNat = c.toNat + 32 := by
  obtain ⟨h1, h2⟩ := isUpper_toNat h
  unfold Char.toLower
  rw [if_pos ⟨h1, h2⟩]
  exact toNat_ofNat_valid (Or.inl (by omega))

theorem toLower_eq_of_not_upper {c : Char} (h : c.isUpper = false) : c.toLower = c := by
  unfold Char.toLower
  rw [if_neg]
  intro ⟨h1, h2⟩
  simp only [Char.isUpper, Bool.and_eq_true, decide_eq_true_eq] at h
  rw [Bool.and_eq_false_iff] at h
  rcases h with h | h <;> simp only [decide_eq_false_iff_not] at h <;>
    exact h (by exact_mod_cast ‹_›)

theorem alnum_toLower_not_punct {c : Char} (h : c.isAlphanum = true) :
    isPunctChar c.toLower = false := by
  cases hu : c.isUpper with
  | true =>
    have := toLower_toNat_of_isUpper hu
    have h65 := (isUpper_toNat hu).1
    exact ge97_not_punct (by omega)
  | false => rw [toLower_eq_of_not_upper hu]; exact alnum_not_punct h

theorem alnum_toLower_not_ws {c : Char} (h : c.isAlphanum = true) :
    isWsChar c.toLower = false := by
  cases hu : c.isUpper with
  | true =>
    have := toLower_toNat_of_isUpper hu
    have h65 := (isUpper_toNat hu).1
    exact ge97_not_ws (by omega)
  | false => rw [toLower_eq_of_not_upper hu]; exact alnum_not_ws h

/-! ## C1 — list utilities -/

theorem dropWhile_all_false {p : Char → Bool} :
    ∀ {l : List Char}, (∀ c ∈ l, p c = false) → l.dropWhile p = l := by
  intro l h
  cases l with
  | nil => rfl
  | cons c cs => rw [List.dropWhile_cons, h c (List.mem_cons_self c cs)]; simp

theorem takeWhile_all_append {p : Char → Bool} :
    ∀ {w : List Char} (rest : List Char), (∀ c ∈ w, p c = true) →
      (w ++ rest).takeWhile p = w ++ rest.takeWhile p := by
  intro w
  induction w with
  | nil => intro rest h; rfl
  | cons c cs ih =>
    intro rest h
    rw [List.cons_append, List.takeWhile_cons, h c (List.mem_cons_self c cs)]
    simp only [if_true, List.cons_append, List.cons.injEq, true_and]
    exact ih rest (fun d hd => h d (List.mem_cons_of_mem c hd))

theorem takeWhile_head_false {p : Char → Bool} {c : Char} (cs : List Char)
    (h : p c = false) : (c :: cs).takeWhile p = [] := by
  rw [List.takeWhile_cons, h]
  simp

theorem dropWhile_head_false {p : Char → Bool} {c : Char} (cs : List Char)
    (h : p c = false) : (c :: cs).dropWhile p = c :: cs := by
  rw [List.dropWhile_cons, h]
  simp

theorem trimList_all {l : List Char} (h : ∀ c ∈ l, isWsChar c = false) :
    trimList l = l := by
  unfold trimList
  rw [dropWhile_all_false h,
    dropWhile_all_false (fun c hc => h c (List.mem_reverse.mp hc)),
    List.reverse_reverse]

theorem filter_all_true {p : Char → Bool} {l : List Char}
    (h : ∀ c ∈ l, p c = true) : l.filter p = l := by
  induction l with
  | nil => rfl
  | cons c cs ih =>
    rw [List.filter_cons, if_pos]
    · rw [ih (fun d hd => h d (List.mem_cons_of_mem c hd))]
    · simp [h c (List.mem_cons_self c cs)]

theorem filter_all_false {p : Char → Bool} {l : List Char}
    (h : ∀ c ∈ l, p c = false) : l.filter p = [] := by
  induction l with
  | nil => rfl
  | cons c cs ih =>
    rw [List.filter_cons, if_neg]
    · exact ih (fun d hd => h d (List.mem_cons_of_mem c hd))
    · simp [h c (List.mem_cons_self c cs)]

/-! ## C1 — splitting the joined text recovers the fragments -/

theorem splitWsGo_wsfree_append {xs : List Char}
    (hxs : ∀ c ∈ xs, isWsChar c = false) :
    ∀ (cur rest : List Char), splitWsGo cur (xs ++ rest) = splitWsGo (xs.reverse ++ cur) rest := by
  induction xs with
  | nil => intro cur rest; rfl
  | cons c cs ih =>
    intro cur rest
    rw [List.cons_append]
    show splitWsGo cur (c :: (cs ++ rest)) = _
    rw [splitWsGo, hxs c (List.mem_cons_self c cs)]
    simp only [Bool.false_eq_true, if_false]
    rw [ih (fun d hd => hxs d (List.mem_cons_of_mem c hd)) (c :: cur) rest]
    simp [List.append_assoc]

theorem splitWs_joinWords :
    ∀ (frags : List (List Char)),
      (∀ f ∈ frags, f ≠ [] ∧ ∀ c ∈ f, isWsChar c = false) →
      splitWs (joinWords frags) = frags := by
  intro frags
  induction frags with
  | nil => intro _; rfl
  | cons f rest ih =>
    intro h
    obtain ⟨hf, hfws⟩ := h f (List.mem_cons_self f rest)
    cases rest with
    | nil =>
      have h1 : splitWsGo [] (f ++ []) = splitWsGo (f.reverse ++ []) [] :=
        splitWsGo_wsfree_append hfws [] []
      rw [List.append_nil, List.append_nil] at h1
      show splitWsGo [] f = [f]
      rw [h1, splitWsGo, if_neg (by simpa using hf), List.reverse_reverse]
    | cons g rest' =>
      have hrest := ih (fun x hx => h x (List.mem_cons_of_mem f hx))
      unfold splitWs at hrest
      show splitWsGo [] (f ++ ' ' :: joinWords (g :: rest')) = f :: g :: rest'
      rw [splitWsGo_wsfree_append hfws [] (' ' :: joinWords (g :: rest')), List.append_nil]
      rw [splitWsGo, if_pos (by decide : isWsChar ' ' = true),
        if_neg (by simpa using hf), List.reverse_reverse, hrest]

/-! ## C1 — tokenizing a good fragment -/

theorem takeWhile_all_false {p : Char → Bool} {l : List Char}
    (h : ∀ c ∈ l, p c = false) : l.takeWhile p = [] := by
  cases l with
  | nil => rfl
  | cons c cs => exact takeWhile_head_false cs (h c (List.mem_cons_self c cs))

theorem normalize_parts {w p : List Char} (hw : ∀ c ∈ w, c.isAlphanum = true)
    (hp : ∀ c ∈ p, isPunctChar c = true) :
    normalize (w ++ p) = w.map Char.toLower := by
  unfold normalize
  rw [List.map_append, List.filter_append]
  have h1 : (w.map Char.toLower).filter (fun c => !isPunctChar c) = w.map Char.toLower := by
    refine filter_all_true ?_
    intro c hc
    obtain ⟨d, hd, rfl⟩ := List.mem_map.mp hc
    simp [alnum_toLower_not_punct (hw d hd)]
  have h2 : (p.map Char.toLower).filter (fun c => !isPunctChar c) = [] := by
    refine filter_all_false ?_
    intro c hc
    obtain ⟨d, hd, rfl⟩ := List.mem_map.mp hc
    rw [punct_toLower_eq (hp d hd)]
    simp [hp d hd]
  rw [h1, h2, List.append_nil]
  refine trimList_all ?_
  intro c hc
  obtain ⟨d, hd, rfl⟩ := List.mem_map.mp hc
  exact alnum_toLower_not_ws (hw d hd)

theorem tokenizePart_word {w : List Char} (hw1 : w ≠ [])
    (hw : ∀ c ∈ w, c.isAlphanum = true) :
    tokenizePart w = [⟨w, false⟩] := by
  have hn : normalize w = w.map Char.toLower := by
    have h0 := normalize_parts (p := []) hw (by intro c hc; cases hc)
    rwa [List.append_nil] at h0
  unfold tokenizePart
  rw [hn, if_neg (by simpa using hw1), if_pos rfl]

theorem tokenizePart_mixed {w p : List Char} (hw1 : w ≠ []) (hp1 : p ≠ [])
    (hw : ∀ c ∈ w, c.isAlphanum = true)
    (hp : ∀ c ∈ p, isPunctChar c = true ∧ c ≠ '\'') :
    tokenizePart (w ++ p) = [⟨w, false⟩, ⟨p, true⟩] := by
  have hpP : ∀ c ∈ p, isPunctChar c = true := fun c hc => (hp c hc).1
  have hn : normalize (w ++ p) = w.map Char.toLower := normalize_parts hw hpP
  obtain ⟨c0, w', rfl⟩ : ∃ c0 w', w = c0 :: w' := by
    cases w with
    | nil => exact absurd rfl hw1
    | cons a b => exact ⟨a, b, rfl⟩
  obtain ⟨d0, p', rfl⟩ : ∃ d0 p', p = d0 :: p' := by
    cases p with
    | nil => exact absurd rfl hp1
    | cons a b => exact ⟨a, b, rfl⟩
  have hlen : (d0 :: p').length < ((c0 :: w') ++ (d0 :: p')).length := by
    simp [List.length_append]
    omega
  have hlead : ((c0 :: w') ++ (d0 :: p')).takeWhile isPunctChar = [] := by
    rw [List.cons_append]
    exact takeWhile_head_false _ (alnum_not_punct (hw c0 (List.mem_cons_self c0 w')))
  have hword : firstRun isWordChar ((c0 :: w') ++ (d0 :: p')) = c0 :: w' := by
    unfold firstRun
    rw [List.cons_append, dropWhile_head_false _
      (by simp [alnum_isWordChar (hw c0 (List.mem_cons_self c0 w'))]),
      ← List.cons_append,
      takeWhile_all_append _ (fun c hc => alnum_isWordChar (hw c hc)),
      takeWhile_head_false _
        (punct_not_wordChar (hp d0 (List.mem_cons_self d0 p')).1
          (hp d0 (List.mem_cons_self d0 p')).2),
      List.append_nil]
  have htrail : suffixRun isPunctChar ((c0 :: w') ++ (d0 :: p')) = d0 :: p' := by
    unfold suffixRun
    rw [List.reverse_append,
      takeWhile_all_append _ (fun c hc => hpP c (List.mem_reverse.mp hc)),
      takeWhile_all_false (fun c hc => alnum_not_punct (hw c (List.mem_reverse.mp hc))),
      List.append_nil, List.reverse_reverse]
  have hne : ¬(List.map Char.toLower (c0 :: w') =
      List.map Char.toLower ((c0 :: w') ++ (d0 :: p'))) := by
    intro heq
    have hl := congrArg List.length heq
    simp [List.length_append] at hl
  unfold tokenizePart
  rw [hn, if_neg (by simp), if_neg hne, hlead, hword, htrail]
  simp
  omega

/-! ## C1 — rendering the token stream -/

theorem renderRest_append (ts us : List Token) :
    renderRest (ts ++ us) = renderRest ts ++ renderRest us := by
  induction ts with
  | nil => rfl
  | cons t ts ih => simp [renderRest, ih, List.append_assoc]

theorem goodFragment_shape {f : List Char} (h : goodFragment f) :
    tokenizePart f = [⟨f, false⟩] ∨
    ∃ w p, f = w ++ p ∧ tokenizePart f = [⟨w, false⟩, ⟨p, true⟩] := by
  obtain ⟨w, p, rfl, hw1, hw, hp⟩ := h
  by_cases hp1 : p = []
  · subst hp1
    rw [List.append_nil]
    exact Or.inl (tokenizePart_word hw1 hw)
  · exact Or.inr ⟨w, p, rfl, tokenizePart_mixed hw1 hp1 hw hp⟩

theorem renderRest_flatMap :
    ∀ (frags : List (List Char)), (∀ f ∈ frags, goodFragment f) →
      renderRest (frags.flatMap tokenizePart) = frags.flatMap (fun f => ' ' :: f) := by
  intro frags
  induction frags with
  | nil => intro _; rfl
  | cons f rest ih =>
    intro h
    have ihr := ih (fun x hx => h x (List.mem_cons_of_mem f hx))
    rcases goodFragment_shape (h f (List.mem_cons_self f rest)) with htok | ⟨w, p, hf, htok⟩
    · rw [List.flatMap_cons, List.flatMap_cons, renderRest_append, ihr, htok]
      simp [renderRest]
    · rw [List.flatMap_cons, List.flatMap_cons, renderRest_append, ihr, htok, hf]
      simp [renderRest, List.append_assoc]

theorem flatMapSp_eq :
    ∀ frags : List (List Char),
      frags.flatMap (fun f => ' ' :: f) = if frags = [] then [] else ' ' :: joinWords frags := by
  intro frags
  induction frags with
  | nil => rfl
  | cons f rest ih =>
    rw [List.flatMap_cons, ih]
    cases rest with
    | nil => simp [joinWords]
    | cons g rest' =>
      rw [if_neg (by simp), if_neg (by simp)]
      show (' ' :: f) ++ (' ' :: joinWords (g :: rest')) = ' ' :: joinWords (f :: g :: rest')
      simp [joinWords]

/-! ## C1 — the round-trip claims -/

/-- C1 (counterexample): the round-trip fails already on `"hello ."`: the
tokenizer produces a word token `"hello"` and a punctuation token `"."`,
and the spacing rule (no space before punctuation) re-joins them to
`"hello."`, which differs from the input byte-for-byte. -/
theorem tokenize_roundTrip_counterexample :
    render (tokenize "hello .".toList) = "hello.".toList ∧
    "hello.".toList ≠ "hello .".toList :=
  ⟨by decide, by decide⟩

/-- C1 (amended): the round-trip holds for texts that are single-space-joined
fragments, each a nonempty ASCII-alphanumeric word followed by optional
trailing punctuation (no apostrophes): joining the tokenizer's output with a
space everywhere except before a punctuation token reproduces the text
byte-for-byte. In general the round-trip fails (standalone or leading
punctuation fragments, repeated spaces, and characters outside the
tokenizer's classes are not reproduced). -/
theorem tokenize_roundTrip (frags : List (List Char))
    (h : ∀ f ∈ frags, goodFragment f) :
    render (tokenize (joinWords frags)) = joinWords frags := by
  unfold tokenize
  have hws : ∀ f ∈ frags, f ≠ [] ∧ ∀ c ∈ f, isWsChar c = false := by
    intro f hf
    obtain ⟨w, p, rfl, hw1, hw, hp⟩ := h f hf
    constructor
    · simp [hw1]
    · intro c hc
      rcases List.mem_append.mp hc with hc | hc
      · exact alnum_not_ws (hw c hc)
      · exact punct_not_ws (hp c hc).1
  rw [splitWs_joinWords frags hws]
  cases frags with
  | nil => rfl
  | cons f rest =>
    have hrr := renderRest_flatMap rest (fun x hx => h x (List.mem_cons_of_mem f hx))
    rcases goodFragment_shape (h f (List.mem_cons_self f rest)) with htok | ⟨w, p, hf, htok⟩
    · rw [List.flatMap_cons, htok, List.singleton_append, render, hrr, flatMapSp_eq]
      cases rest with
      | nil => simp [joinWords, renderRest]
      | cons g rest' => simp [joinWords]
    · rw [List.flatMap_cons, htok]
      show render (⟨w, false⟩ :: (⟨p, true⟩ :: rest.flatMap tokenizePart)) = _
      rw [render, renderRest, hrr, flatMapSp_eq, hf]
      cases rest with
      | nil => simp [joinWords, renderRest]
      | cons g rest' => simp [joinWords, renderRest, List.append_assoc]

/-- C1 (witness): the amended round-trip at `"Hello, world!"`. -/
theorem tokenize_roundTrip_witness :
    (∀ f ∈ ["Hello,".toList, "world!".toList], goodFragment f) ∧
    render (tokenize (joinWords ["Hello,".toList, "world!".toList])) =
      joinWords ["Hello,".toList, "world!".toList] := by
  have hg : ∀ f ∈ ["Hello,".toList, "world!".toList], goodFragment f := by
    intro f hf
    simp only [List.mem_cons, List.not_mem_nil, or_false] at hf
    rcases hf with rfl | rfl
    · exact ⟨"Hello".toList, ",".toList, by decide, by decide, by decide, by decide⟩
    · exact ⟨"world".toList, "!".toList, by decide, by decide, by decide, by decide⟩
  exact ⟨hg, tokenize_roundTrip _ hg⟩

/-! ## C2 — current-token locator contract -/

/-- C2 (counterexample): a word token with a genuine window starting exactly at
time 0 refutes the claimed contract: at `t = 0.1` the claimed condition holds
(word token, carries timestamps, `t ∈ [start − ε, end − ε)`), but
`isCurrentToken` returns `false`, because `!token.start` is a falsiness test. -/
theorem isCurrentToken_contract_counterexample :
    isCurrentToken (Rat.divInt 1 10) ⟨"hi".toList, some 0, some (Rat.divInt 2 5), false⟩ = false ∧
    (AlignedToken.mk "hi".toList (some 0) (some (Rat.divInt 2 5)) false).isPunctuation = false ∧
    (0 : ℚ) - EPSILON ≤ Rat.divInt 1 10 ∧
    (Rat.divInt 1 10 : ℚ) < Rat.divInt 2 5 - EPSILON := by
  refine ⟨by decide, rfl, ?_, ?_⟩ <;>
    norm_num [EPSILON, Rat.divInt_eq_div]

/-- C2 (amended): `isCurrentToken t tok` is `true` iff `tok` is a
non-punctuation token carrying **nonzero** timestamps `s`, `e` and
`t ∈ [s − ε, e − ε)` with ε = 0.01; punctuation tokens, tokens without
timestamps, and tokens whose `start` or `end` equals 0 are never active. -/
theorem isCurrentToken_contract (t : ℚ) (tok : AlignedToken) :
    isCurrentToken t tok = true ↔
      tok.isPunctuation = false ∧ ∃ s e, tok.start = some s ∧ tok.«end» = some e ∧
        s ≠ 0 ∧ e ≠ 0 ∧ s - EPSILON ≤ t ∧ t < e - EPSILON := by
  obtain ⟨tx, s?, e?, p⟩ := tok
  cases p
  · cases s? with
    | none => simp [isCurrentToken, jsFalsy]
    | some s =>
      cases e? with
      | none => simp [isCurrentToken, jsFalsy]
      | some e =>
        by_cases hs : s = 0
        · subst hs; simp [isCurrentToken, jsFalsy]
        · by_cases he : e = 0
          · subst he; simp [isCurrentToken, jsFalsy, hs]
          · simp [isCurrentToken, jsFalsy, hs, he, qsub_eq, ge_iff_le, beq_iff_eq]
  · simp [isCurrentToken]

/-- C2 (witness for the amended contract). -/
theorem isCurrentToken_contract_witness :
    isCurrentToken (Rat.divInt 1 10)
        ⟨"hi".toList, some (Rat.divInt 1 100), some (Rat.divInt 2 5), false⟩ = true ↔
      (AlignedToken.mk "hi".toList (some (Rat.divInt 1 100)) (some (Rat.divInt 2 5))
          false).isPunctuation = false ∧
      ∃ s e, (AlignedToken.mk "hi".toList (some (Rat.divInt 1 100)) (some (Rat.divInt 2 5))
          false).start = some s ∧
        (AlignedToken.mk "hi".toList (some (Rat.divInt 1 100)) (some (Rat.divInt 2 5))
          false).«end» = some e ∧
        s ≠ 0 ∧ e ≠ 0 ∧ s - EPSILON ≤ Rat.divInt 1 10 ∧ Rat.divInt 1 10 < e - EPSILON :=
  isCurrentToken_contract _ _

/-! ## C9 — implicit zero-timestamp edge case -/

/-- C9: any token whose `start` or `end` equals 0 is never active, at any
playback time: the guard tests the fields for JavaScript falsiness, and `0`
is falsy. -/
theorem isCurrentToken_zero_never_active (t : ℚ) (tok : AlignedToken)
    (h : tok.start = some 0 ∨ tok.«end» = some 0) :
    isCurrentToken t tok = false := by
  obtain ⟨tx, s?, e?, p⟩ := tok
  rcases h with h | h
  · simp only at h
    subst h
    cases p <;> simp [isCurrentToken, jsFalsy]
  · simp only at h
    subst h
    cases p <;> cases s? <;> simp [isCurrentToken, jsFalsy]

/-- C9 (witness). -/
theorem isCurrentToken_zero_never_active_witness :
    isCurrentToken (Rat.divInt 1 10) ⟨"hi".toList, some 0, some (Rat.divInt 2 5), false⟩ = false :=
  isCurrentToken_zero_never_active _ _ (Or.inl rfl)

/-! ## C4 — worked interpolation example -/

/-- C4 (counterexample): on the spec's worked example the interpolated token
`"there"` gets `end = 0.75` (namely `start + min((nextStart − prevEnd)/2, 0.5)
= 0.45 + 0.3`), not `≈ 0.725`. -/
theorem interpolation_example_counterexample :
    ((chapterAlignedTokens exampleChapter exampleTimestamps).get? 1).map
        (fun t => t.«end») = some (some (Rat.divInt 3 4)) ∧
    (Rat.divInt 3 4 : ℚ) ≠ 0.725 ∧ |(Rat.divInt 3 4 : ℚ) - 0.725| = 0.025 := by
  refine ⟨by decide, ?_, ?_⟩ <;> norm_num [Rat.divInt_eq_div]

/-- C4 (amended): on the worked example, `"there"` receives
`start = 0.45` and `end = 0.75` (duration `min((1.0 − 0.4)/2, 0.5) = 0.3`),
strictly between its neighbors' timestamps. -/
theorem interpolation_example :
    chapterAlignedTokens exampleChapter exampleTimestamps =
      [⟨"hello".toList, some 0, some (Rat.divInt 2 5), false⟩,
       ⟨"there".toList, some (Rat.divInt 9 20), some (Rat.divInt 3 4), false⟩,
       ⟨"world".toList, some 1, some (Rat.divInt 7 5), false⟩] ∧
    (Rat.divInt 9 20 : ℚ) = 0.45 ∧ (Rat.divInt 3 4 : ℚ) = 0.75 ∧
    (Rat.divInt 2 5 : ℚ) < Rat.divInt 9 20 ∧ (Rat.divInt 3 4 : ℚ) < 1 := by
  refine ⟨by decide, ?_, ?_, ?_, ?_⟩ <;> norm_num [Rat.divInt_eq_div]

/-! ## C6 — sequence aligner segment handling -/

theorem get?_isSome_lt {α} {l : List α} {n : Nat} (h : (l.get? n).isSome = true) :
    n < l.length := by
  by_contra hn
  rw [List.get?_eq_none.mpr (by omega)] at h
  simp at h

theorem buildMapGo_eq_matchPairs (relevant : List WordTimestamp) :
    ∀ (d : List DiffPart) (cIdx wIdx : Nat),
      buildMapGo relevant cIdx wIdx d =
        (matchPairs cIdx wIdx d).filterMap (fun pr =>
          (relevant.get? pr.2).map (fun wt => (pr.1, (wt.startTime, wt.endTime)))) := by
  intro d
  induction d with
  | nil => intro cIdx wIdx; rfl
  | cons part rest ih =>
    intro cIdx wIdx
    cases hadd : part.added with
    | false =>
      cases hrem : part.removed with
      | false =>
        simp only [buildMapGo, matchPairs, hadd, hrem, Bool.not_false, Bool.and_self,
          if_true, List.filterMap_append, List.filterMap_map, ih]
        have hfun : (fun i =>
            match relevant.get? (wIdx + i) with
            | some wt => some (cIdx + i, (wt.startTime, wt.endTime))
            | none => none) =
            ((fun pr : Nat × Nat =>
              Option.map (fun wt => (pr.1, (wt.startTime, wt.endTime)))
                (relevant.get? pr.2)) ∘ fun i => (cIdx + i, wIdx + i)) := by
          funext i
          simp only [Function.comp_apply]
          cases relevant.get? (wIdx + i) <;> rfl
        rw [hfun]
      | true =>
        simp only [buildMapGo, matchPairs, hadd, hrem, Bool.not_false, Bool.not_true,
          Bool.and_false, Bool.false_eq_true, if_false, if_true, ih]
    | true =>
      cases hrem : part.removed <;>
        simp only [buildMapGo, matchPairs, hadd, hrem, Bool.not_false, Bool.not_true,
          Bool.false_and, Bool.and_false, Bool.false_eq_true, if_false, if_true, ih]

theorem matchPairs_diffWordsGo (fuel : Nat) :
    ∀ (as bs : List (List Char)) (cIdx wIdx x y : Nat),
      (x, y) ∈ matchPairs cIdx wIdx (diffWordsGo fuel as bs) →
      cIdx ≤ x ∧ wIdx ≤ y ∧ as.get? (x - cIdx) = bs.get? (y - wIdx) ∧
        (as.get? (x - cIdx)).isSome = true := by
  induction fuel with
  | zero =>
    intro as bs cIdx wIdx x y h
    simp [diffWordsGo, matchPairs] at h
  | succ fuel ih =>
    intro as bs cIdx wIdx x y h
    cases as with
    | nil =>
      cases bs with
      | nil => simp [diffWordsGo, matchPairs] at h
      | cons b bs' => simp [diffWordsGo, matchPairs] at h
    | cons a as' =>
      cases bs with
      | nil => simp [diffWordsGo, matchPairs] at h
      | cons b bs' =>
        by_cases hab : a = b
        · subst hab
          rw [diffWordsGo] at h
          rw [if_pos rfl] at h
          have hmp : matchPairs cIdx wIdx
              (⟨[a], false, false⟩ :: diffWordsGo fuel as' bs') =
              (cIdx + 0, wIdx + 0) :: matchPairs (cIdx + 1) (wIdx + 1)
                (diffWordsGo fuel as' bs') := rfl
          rw [hmp] at h
          rcases List.mem_cons.mp h with heq | h
          · rw [Prod.mk.injEq] at heq
            obtain ⟨rfl, rfl⟩ := heq
            simp
          · obtain ⟨h1, h2, h3, h4⟩ := ih as' bs' (cIdx + 1) (wIdx + 1) x y h
            have hx : x - cIdx = (x - (cIdx + 1)) + 1 := by omega
            have hy : y - wIdx = (y - (wIdx + 1)) + 1 := by omega
            rw [hx, hy]
            exact ⟨by omega, by omega, h3, h4⟩
        · rw [diffWordsGo] at h
          rw [if_neg hab] at h
          simp only at h
          split at h
          · simp only [matchPairs, Bool.not_false, Bool.not_true, Bool.and_false,
              Bool.false_eq_true, if_false, if_true] at h
            obtain ⟨h1, h2, h3, h4⟩ := ih as' (b :: bs') (cIdx + 1) wIdx x y h
            have hx : x - cIdx = (x - (cIdx + 1)) + 1 := by omega
            rw [hx]
            exact ⟨by omega, h2, h3, h4⟩
          · simp only [matchPairs, Bool.not_false, Bool.not_true, Bool.false_and,
              Bool.false_eq_true, if_false] at h
            obtain ⟨h1, h2, h3, h4⟩ := ih (a :: as') bs' cIdx (wIdx + 1) x y h
            have hy : y - wIdx = (y - (wIdx + 1)) + 1 := by omega
            rw [hy]
            exact ⟨h1, by omega, h3, h4⟩

theorem diffWords_nil_empty (relevant : List WordTimestamp) (as bs : List (List Char))
    (h : as = [] ∨ bs = []) : buildMapGo relevant 0 0 (diffWords as bs) = [] := by
  rcases h with rfl | rfl
  · cases bs with
    | nil => rfl
    | cons b bs' => rfl
  · cases as with
    | nil => rfl
    | cons a as' => rfl

/-- C6 (counterexample): the stated 1:1 transfer fails when a speech-engine
word normalizes to the empty string. With speech words `"-"` (times 0–1) and
`"hello"` (times 2–3) and chapter text `"hello"`, the diff matches the two
`"hello"`s, but the loop indexes `relevantTimestamps` by the diff-side word
counter and stores the times (0, 1) of `"-"` instead of (2, 3). -/
theorem aligner_transfer_counterexample :
    chapterWordMap ⟨[], ["hello".toList], 0, 10⟩
        [⟨"-".toList, 0, 1⟩, ⟨"hello".toList, 2, 3⟩] = [(0, (0, 1))] ∧
    ((0 : ℚ), (1 : ℚ)) ≠ ((2 : ℚ), (3 : ℚ)) :=
  ⟨by decide, by decide⟩

/-- C6 (amended): the diff-consumption loop equals the spec-side 1:1 mapping
over the equal segments' position pairs (guarded by the speech list's length);
each matched pair carries equal diff-side words; re-splitting is the identity
when every normalized word is nonempty and whitespace-free (so diff-side
speech positions then coincide with `relevantTimestamps` indices, which fails
for empty-normalizing words); and an empty word sequence on either side
yields an empty mapping. -/
theorem aligner_segments :
    (∀ (relevant : List WordTimestamp) (d : List DiffPart) (cIdx wIdx : Nat),
        buildMapGo relevant cIdx wIdx d =
          (matchPairs cIdx wIdx d).filterMap (fun pr =>
            (relevant.get? pr.2).map (fun wt => (pr.1, (wt.startTime, wt.endTime))))) ∧
    (∀ (as bs : List (List Char)) (x y : Nat),
        (x, y) ∈ matchPairs 0 0 (diffWords as bs) →
          as.get? x = bs.get? y ∧ x < as.length) ∧
    (∀ ws : List (List Char),
        (∀ w ∈ ws, w ≠ [] ∧ ∀ c ∈ w, isWsChar c = false) → resplit ws = ws) ∧
    (∀ (relevant : List WordTimestamp) (as bs : List (List Char)),
        as = [] ∨ bs = [] → buildMapGo relevant 0 0 (diffWords as bs) = []) := by
  refine ⟨fun relevant d c w => buildMapGo_eq_matchPairs relevant d c w, ?_,
    fun ws hws => splitWs_joinWords ws hws, diffWords_nil_empty⟩
  intro as bs x y h
  obtain ⟨h1, h2, h3, h4⟩ := matchPairs_diffWordsGo (as.length + bs.length) as bs 0 0 x y h
  rw [Nat.sub_zero] at h3 h4
  rw [Nat.sub_zero] at h3
  exact ⟨h3, get?_isSome_lt h4⟩

/-- C6 (witness): the amended statement applied at concrete inputs — the
empty chapter-word sequence yields an empty mapping. -/
theorem aligner_segments_witness :
    buildMapGo [⟨"hi".toList, 0, 1⟩] 0 0 (diffWords [] ["hi".toList]) = [] :=
  aligner_segments.2.2.2 [⟨"hi".toList, 0, 1⟩] [] ["hi".toList] (Or.inl rfl)

/-! ## Interpolation pass — step machinery -/

theorem interpAt_eq_of_get (res : List AlignedToken) (i : Nat) :
    (res.get? i = none → interpAt res i = res) ∧
    ∀ t, res.get? i = some t →
      interpAt res i =
        (if t.isPunctuation = false ∧ t.start = none then
          match backScanGo res i, fwdScan res i with
          | some prevTime, some nextTime =>
            res.set i { t with start := some (qadd prevTime (Rat.divInt 1 20)), «end» := some (qadd (qadd prevTime (Rat.divInt 1 20)) (ratMin (qdiv (qsub nextTime prevTime) 2) (Rat.divInt 1 2))) }
          | some prevTime, none =>
            res.set i { t with start := some (qadd prevTime (Rat.divInt 1 20)), «end» := some (qadd (qadd prevTime (Rat.divInt 1 20)) (Rat.divInt 1 2)) }
          | none, some nextTime =>
            res.set i { t with start := some (ratMax 0 (qsub nextTime (Rat.divInt 11 20))), «end» := some (qsub nextTime (Rat.divInt 1 20)) }
          | none, none => res
        else res) := by
  constructor
  · intro h
    unfold interpAt
    rw [h]
  · intro t h
    unfold interpAt
    rw [h]

theorem interpAt_length (res : List AlignedToken) (i : Nat) :
    (interpAt res i).length = res.length := by
  cases hres : res.get? i with
  | none => rw [(interpAt_eq_of_get res i).1 hres]
  | some t =>
    rw [(interpAt_eq_of_get res i).2 t hres]
    by_cases h : t.isPunctuation = false ∧ t.start = none
    · rw [if_pos h]
      cases backScanGo res i <;> cases fwdScan res i <;> simp [List.length_set]
    · rw [if_neg h]

theorem interpAt_get_ne (res : List AlignedToken) (i j : Nat) (hij : i ≠ j) :
    (interpAt res i).get? j = res.get? j := by
  cases hres : res.get? i with
  | none => rw [(interpAt_eq_of_get res i).1 hres]
  | some t =>
    rw [(interpAt_eq_of_get res i).2 t hres]
    by_cases h : t.isPunctuation = false ∧ t.start = none
    · rw [if_pos h]
      cases backScanGo res i <;> cases fwdScan res i <;>
        first
        | rfl
        | exact List.get?_set_ne _ _ hij
    · rw [if_neg h]

theorem interpGo_length (fuel : Nat) :
    ∀ (i : Nat) (res : List AlignedToken), (interpGo fuel i res).length = res.length := by
  induction fuel with
  | zero => intro i res; rfl
  | succ fuel ih =>
    intro i res
    rw [interpGo, ih, interpAt_length]

theorem interpGo_get_lt (fuel : Nat) :
    ∀ (i j : Nat) (res : List AlignedToken), j < i →
      (interpGo fuel i res).get? j = res.get? j := by
  induction fuel with
  | zero => intro i j res _; rfl
  | succ fuel ih =>
    intro i j res hj
    rw [interpGo, ih (i + 1) j _ (by omega), interpAt_get_ne res i j (by omega)]

theorem interpGo_split (f : Nat) :
    ∀ (g i : Nat) (res : List AlignedToken),
      interpGo (f + g) i res = interpGo g (i + f) (interpGo f i res) := by
  induction f with
  | zero =>
    intro g i res
    rw [Nat.zero_add, Nat.add_zero]
    rfl
  | succ f ih =>
    intro g i res
    rw [show f + 1 + g = (f + g) + 1 by omega]
    rw [interpGo, interpGo, ih g (i + 1) (interpAt res i),
      show i + 1 + f = i + (f + 1) by omega]

theorem interpGo_ge (fuel : Nat) :
    ∀ (i : Nat) (res : List AlignedToken), res.length ≤ i → interpGo fuel i res = res := by
  induction fuel with
  | zero => intro i res _; rfl
  | succ fuel ih =>
    intro i res hi
    rw [interpGo, (interpAt_eq_of_get res i).1 (List.get?_eq_none.mpr hi),
      ih (i + 1) res (by omega)]

theorem stateAt_get_ge (res : List AlignedToken) :
    ∀ (i j : Nat), i ≤ j → (interpGo i 0 res).get? j = res.get? j := by
  intro i
  induction i with
  | zero => intro j _; rfl
  | succ i ih =>
    intro j hj
    rw [show i + 1 = i + 1 from rfl, interpGo_split i 1 0 res, Nat.zero_add]
    show (interpGo 1 i (interpGo i 0 res)).get? j = _
    rw [show interpGo 1 i (interpGo i 0 res) = interpAt (interpGo i 0 res) i from rfl]
    rw [interpAt_get_ne _ i j (by omega), ih j (by omega)]

theorem interpPass_get_decomp (res : List AlignedToken) (i : Nat) (hi : i < res.length) :
    (interpPass res).get? i = (interpAt (interpGo i 0 res) i).get? i := by
  unfold interpPass
  rw [show res.length = i + (res.length - i) by omega, interpGo_split i (res.length - i) 0 res,
    Nat.zero_add]
  rw [show res.length - i = (res.length - i - 1) + 1 by omega]
  rw [interpGo]
  rw [interpGo_get_lt _ (i + 1) i _ (by omega)]

theorem interpPass_get_lt (res : List AlignedToken) (i j : Nat) (hj : j < i) :
    (interpPass res).get? j = (interpGo i 0 res).get? j := by
  unfold interpPass
  by_cases hi : i ≤ res.length
  · rw [show res.length = i + (res.length - i) by omega, interpGo_split i (res.length - i) 0 res,
      Nat.zero_add, interpGo_get_lt _ i j _ hj]
  · rw [show i = res.length + (i - res.length) by omega,
      interpGo_split res.length (i - res.length) 0 res, Nat.zero_add,
      interpGo_ge (i - res.length) res.length (interpGo res.length 0 res)
        (by rw [interpGo_length])]

theorem backScanGo_cons_some {l : List AlignedToken} {u : AlignedToken} {j : Nat}
    (h : l.get? j = some u) :
    backScanGo l (j + 1) =
      if u.isPunctuation = false ∧ u.«end».isSome then u.«end» else backScanGo l j := by
  conv_lhs => rw [backScanGo]
  rw [h]

theorem backScanGo_cons_none {l : List AlignedToken} {j : Nat} (h : l.get? j = none) :
    backScanGo l (j + 1) = backScanGo l j := by
  conv_lhs => rw [backScanGo]
  rw [h]

theorem backScanGo_congr (l l' : List AlignedToken) (i : Nat)
    (h : ∀ j, j < i → l.get? j = l'.get? j) : backScanGo l i = backScanGo l' i := by
  induction i with
  | zero => rfl
  | succ i ih =>
    have hcur := h i (by omega)
    cases hl : l.get? i with
    | none =>
      have hl' : l'.get? i = none := by rw [← hcur]; exact hl
      rw [backScanGo_cons_none hl, backScanGo_cons_none hl']
      exact ih (fun j hj => h j (by omega))
    | some u =>
      have hl' : l'.get? i = some u := by rw [← hcur]; exact hl
      rw [backScanGo_cons_some hl, backScanGo_cons_some hl']
      by_cases hu : u.isPunctuation = false ∧ u.«end».isSome
      · rw [if_pos hu, if_pos hu]
      · rw [if_neg hu, if_neg hu]
        exact ih (fun j hj => h j (by omega))

theorem drop_congr {α} (l l' : List α) (i : Nat) (hlen : l.length = l'.length)
    (h : ∀ j, i ≤ j → l.get? j = l'.get? j) : l.drop i = l'.drop i := by
  apply List.ext_get?
  intro k
  rw [List.get?_drop, List.get?_drop]
  exact h (i + k) (by omega)

theorem fwdScan_stateAt (res : List AlignedToken) (i : Nat) :
    fwdScan (interpGo i 0 res) i = fwdScan res i := by
  unfold fwdScan
  rw [drop_congr (interpGo i 0 res) res (i + 1) (interpGo_length i 0 res)
    (fun j hj => stateAt_get_ge res i j (by omega))]

theorem backScan_stateAt_post (res : List AlignedToken) (i : Nat) :
    backScanGo (interpPass res) i = backScanGo (interpGo i 0 res) i :=
  backScanGo_congr _ _ i (fun j hj => interpPass_get_lt res i j hj)

theorem ratMin_eq (a b : ℚ) : ratMin a b = min a b := by
  rw [ratMin, min_def]

theorem ratMax_eq (a b : ℚ) : ratMax a b = max a b := by
  rw [ratMax, max_def]

theorem divInt_eq_p05 : (Rat.divInt 1 20 : ℚ) = 0.05 := by
  norm_num [Rat.divInt_eq_div]

theorem divInt_eq_half : (Rat.divInt 1 2 : ℚ) = 0.5 := by
  norm_num [Rat.divInt_eq_div]

theorem divInt_eq_p55 : (Rat.divInt 11 20 : ℚ) = 0.55 := by
  norm_num [Rat.divInt_eq_div]

/-! ## C3 — timestamp interpolator formulas -/

/-- C3: for a word token untimed after alignment, the pass fills it per the
four cases, where `prevEnd` is the end of the nearest prior word token with a
known end (scanned in the sequence as updated by the pass, i.e. the final
sequence's prefix) and `nextStart` is the start of the nearest following word
token with a known start in the pre-pass (post-alignment) sequence:
both → start = prevEnd + 0.05, end = start + min((nextStart − prevEnd)/2, 0.5);
only prev → start = prevEnd + 0.05, end = start + 0.5;
only next → end = nextStart − 0.05, start = max(0, end − 0.5);
neither → the token stays untimed and unchanged. -/
theorem interpolation_formulas (res : List AlignedToken) (i : Nat) (t : AlignedToken)
    (hget : res.get? i = some t) (hword : t.isPunctuation = false)
    (huntimed : t.start = none) :
    (∀ pe ns, backScanGo (interpPass res) i = some pe → fwdScan res i = some ns →
      (interpPass res).get? i = some { t with start := some (pe + 0.05), «end» := some (pe + 0.05 + min ((ns - pe) / 2) 0.5) }) ∧
    (∀ pe, backScanGo (interpPass res) i = some pe → fwdScan res i = none →
      (interpPass res).get? i = some { t with start := some (pe + 0.05), «end» := some (pe + 0.05 + 0.5) }) ∧
    (∀ ns, backScanGo (interpPass res) i = none → fwdScan res i = some ns →
      (interpPass res).get? i = some { t with start := some (max 0 (ns - 0.05 - 0.5)), «end» := some (ns - 0.05) }) ∧
    (backScanGo (interpPass res) i = none → fwdScan res i = none →
      (interpPass res).get? i = some t) := by
  have hi : i < res.length := by
    by_contra hn
    rw [List.get?_eq_none.mpr (by omega)] at hget
    cases hget
  have hs : (interpGo i 0 res).get? i = some t := by
    rw [stateAt_get_ge res i i (le_refl i)]
    exact hget
  have hdec := interpPass_get_decomp res i hi
  have hback : backScanGo (interpPass res) i = backScanGo (interpGo i 0 res) i :=
    backScan_stateAt_post res i
  have hfwd : fwdScan (interpGo i 0 res) i = fwdScan res i := fwdScan_stateAt res i
  have hstep := (interpAt_eq_of_get (interpGo i 0 res) i).2 t hs
  rw [if_pos ⟨hword, huntimed⟩] at hstep
  have hlen : i < (interpGo i 0 res).length := by
    rw [interpGo_length]
    exact hi
  refine ⟨?_, ?_, ?_, ?_⟩
  · intro pe ns hpe hns
    rw [hback] at hpe
    rw [← hfwd] at hns
    rw [hpe, hns] at hstep
    rw [hdec, hstep, List.get?_eq_getElem?, List.getElem?_set_eq_of_lt _ hlen]
    simp only [Option.some.injEq, AlignedToken.mk.injEq, qadd_eq, qsub_eq, qdiv_eq,
      ratMin_eq, divInt_eq_p05, divInt_eq_half, true_and, and_true]
  · intro pe hpe hns
    rw [hback] at hpe
    rw [← hfwd] at hns
    rw [hpe, hns] at hstep
    rw [hdec, hstep, List.get?_eq_getElem?, List.getElem?_set_eq_of_lt _ hlen]
    simp only [Option.some.injEq, AlignedToken.mk.injEq, qadd_eq, divInt_eq_p05,
      divInt_eq_half, true_and, and_true]
  · intro ns hpe hns
    rw [hback] at hpe
    rw [← hfwd] at hns
    rw [hpe, hns] at hstep
    rw [hdec, hstep, List.get?_eq_getElem?, List.getElem?_set_eq_of_lt _ hlen]
    simp only [Option.some.injEq, AlignedToken.mk.injEq, qsub_eq, ratMax_eq,
      divInt_eq_p05, divInt_eq_p55, true_and, and_true]
    congr 1
    ring_nf
  · intro hpe hns
    rw [hback] at hpe
    rw [← hfwd] at hns
    rw [hpe, hns] at hstep
    rw [hdec, hstep]
    exact hs

/-- C3 (witness): a three-token sequence with anchors (1, 2) and (10, 11)
around an untimed word; the both-neighbors formula applies. -/
theorem interpolation_formulas_witness :
    (interpPass [⟨"a".toList, some 1, some 2, false⟩, ⟨"b".toList, none, none, false⟩,
        ⟨"c".toList, some 10, some 11, false⟩]).get? 1 =
      some (AlignedToken.mk "b".toList (some ((2 : ℚ) + 0.05))
        (some ((2 : ℚ) + 0.05 + min (((10 : ℚ) - 2) / 2) 0.5)) false) :=
  (interpolation_formulas
    [⟨"a".toList, some 1, some 2, false⟩, ⟨"b".toList, none, none, false⟩,
      ⟨"c".toList, some 10, some 11, false⟩]
    1 ⟨"b".toList, none, none, false⟩ rfl rfl rfl).1 2 10 (by decide) (by decide)

/-! ## C5 — monotonicity after interpolation -/

theorem backScanGo_found (l : List AlignedToken) (i : Nat) (ti : AlignedToken) (e : ℚ)
    (hgi : l.get? i = some ti) (hip : ti.isPunctuation = false) (hiE : ti.«end» = some e) :
    ∀ k, i < k → (∀ j u, i < j → j < k → l.get? j = some u → u.isPunctuation = true) →
      backScanGo l k = some e := by
  intro k
  induction k with
  | zero => intro h _; omega
  | succ k ih =>
    intro hik hbet
    by_cases hki : i = k
    · subst hki
      rw [backScanGo_cons_some hgi, if_pos ⟨hip, by rw [hiE]; rfl⟩, hiE]
    · have hik' : i < k := by omega
      cases hl : l.get? k with
      | none =>
        rw [backScanGo_cons_none hl]
        exact ih hik' (fun j v h1 h2 hv => hbet j v h1 (by omega) hv)
      | some u =>
        have hu : u.isPunctuation = true := hbet k u (by omega) (by omega) hl
        rw [backScanGo_cons_some hl, if_neg (by simp [hu])]
        exact ih hik' (fun j v h1 h2 hv => hbet j v h1 (by omega) hv)

/-- C5 (counterexample): the monotonicity claim fails when two diff-timed
anchors are closer than the 0.05 s offset: with anchors (0, 0.1) and
(0.11, 0.2) around a missing word, the interpolated token gets the window
(0.15, 0.155), so its end 0.155 exceeds the next anchor's start 0.11. -/
theorem monotonicity_counterexample :
    chapterAlignedTokens ⟨[], ["aa bb cc".toList], 0, Rat.divInt 1 5⟩
        [⟨"aa".toList, 0, Rat.divInt 1 10⟩, ⟨"cc".toList, Rat.divInt 11 100, Rat.divInt 1 5⟩] =
      [⟨"aa".toList, some 0, some (Rat.divInt 1 10), false⟩,
       ⟨"bb".toList, some (Rat.divInt 3 20), some (Rat.divInt 31 200), false⟩,
       ⟨"cc".toList, some (Rat.divInt 11 100), some (Rat.divInt 1 5), false⟩] ∧
    ¬(Rat.divInt 31 200 ≤ Rat.divInt 11 100) :=
  ⟨by decide, by decide⟩

/-- C5 (amended): after interpolation, for adjacent timed word tokens A before
B (only punctuation between them) such that B lacked a start before the pass,
B.start = A.end + 0.05, hence A.end < B.start (no overlap). The original
pairwise claim A.end ≤ B.start fails when B's window was assigned by the
diff (speech windows may overlap or follow closer than the interpolation
offsets; see the counterexample). -/
theorem interp_adjacent (res : List AlignedToken) (i k : Nat)
    (ti tk t0 : AlignedToken) (e : ℚ) (hik : i < k)
    (hpi : (interpPass res).get? i = some ti)
    (hpk : (interpPass res).get? k = some tk)
    (hie : ti.isPunctuation = false) (hiE : ti.«end» = some e)
    (hbetween : ∀ j u, i < j → j < k →
      (interpPass res).get? j = some u → u.isPunctuation = true)
    (hpre : res.get? k = some t0) (hpre_p : t0.isPunctuation = false)
    (hpre_s : t0.start = none) :
    tk.start = some (e + 0.05) ∧ e < e + (0.05 : ℚ) := by
  have hk : k < res.length := by
    by_contra hn
    rw [List.get?_eq_none.mpr (by omega)] at hpre
    cases hpre
  have hs : (interpGo k 0 res).get? k = some t0 := by
    rw [stateAt_get_ge res k k (le_refl k)]
    exact hpre
  have hdec := interpPass_get_decomp res k hk
  have hstep := (interpAt_eq_of_get (interpGo k 0 res) k).2 t0 hs
  rw [if_pos ⟨hpre_p, hpre_s⟩] at hstep
  have hlen : k < (interpGo k 0 res).length := by
    rw [interpGo_length]
    exact hk
  have hbs : backScanGo (interpGo k 0 res) k = some e := by
    rw [← backScan_stateAt_post res k]
    exact backScanGo_found (interpPass res) i ti e hpi hie hiE k hik hbetween
  rw [hbs] at hstep
  refine ⟨?_, by norm_num⟩
  cases hns : fwdScan (interpGo k 0 res) k with
  | some ns =>
    rw [hns] at hstep
    rw [hdec, hstep, List.get?_eq_getElem?, List.getElem?_set_eq_of_lt _ hlen] at hpk
    cases hpk
    show some (qadd e (Rat.divInt 1 20)) = some (e + 0.05)
    rw [qadd_eq, divInt_eq_p05]
  | none =>
    rw [hns] at hstep
    rw [hdec, hstep, List.get?_eq_getElem?, List.getElem?_set_eq_of_lt _ hlen] at hpk
    cases hpk
    show some (qadd e (Rat.divInt 1 20)) = some (e + 0.05)
    rw [qadd_eq, divInt_eq_p05]

/-- C5 (witness): a timed word followed by an untimed word; after the pass
the untimed word starts exactly 0.05 after the anchor's end. -/
theorem interp_adjacent_witness :
    (AlignedToken.mk "b".toList (some (Rat.divInt 41 20)) (some (Rat.divInt 51 20))
        false).start = some ((2 : ℚ) + 0.05) ∧ (2 : ℚ) < 2 + (0.05 : ℚ) :=
  interp_adjacent [⟨"a".toList, some 1, some 2, false⟩, ⟨"b".toList, none, none, false⟩]
    0 1 ⟨"a".toList, some 1, some 2, false⟩
    ⟨"b".toList, some (Rat.divInt 41 20), some (Rat.divInt 51 20), false⟩
    ⟨"b".toList, none, none, false⟩ 2 (by omega) (by decide) (by decide) rfl rfl
    (fun j u h1 h2 _ => absurd (h1.trans h2) (by omega)) rfl rfl rfl

/-! ## C10 — all-or-nothing timing invariant -/

theorem buildResult_both :
    ∀ (ts : List Token) (m : List (Nat × (ℚ × ℚ))) (wc : Nat) t,
      t ∈ buildResult ts m wc → t.start.isSome = t.«end».isSome := by
  intro ts
  induction ts with
  | nil => intro m wc t ht; cases ht
  | cons tok rest ih =>
    intro m wc t ht
    by_cases hp : tok.isPunctuation
    · rw [buildResult, if_pos hp] at ht
      rcases List.mem_cons.mp ht with rfl | ht'
      · rfl
      · exact ih m wc t ht'
    · rw [buildResult, if_neg hp] at ht
      cases hl : lookupMap m wc with
      | some v =>
        rw [hl] at ht
        obtain ⟨s, e⟩ := v
        rcases List.mem_cons.mp ht with rfl | ht'
        · rfl
        · exact ih m (wc + 1) t ht'
      | none =>
        rw [hl] at ht
        rcases List.mem_cons.mp ht with rfl | ht'
        · rfl
        · exact ih m (wc + 1) t ht'

theorem interpAt_mem_both (res : List AlignedToken) (i : Nat)
    (h : ∀ t ∈ res, t.start.isSome = t.«end».isSome) :
    ∀ t ∈ interpAt res i, t.start.isSome = t.«end».isSome := by
  intro t ht
  cases hres : res.get? i with
  | none =>
    rw [(interpAt_eq_of_get res i).1 hres] at ht
    exact h t ht
  | some u =>
    rw [(interpAt_eq_of_get res i).2 u hres] at ht
    by_cases hc : u.isPunctuation = false ∧ u.start = none
    · rw [if_pos hc] at ht
      cases hb : backScanGo res i <;> cases hf : fwdScan res i <;> rw [hb, hf] at ht
      · exact h t ht
      all_goals
        rcases List.mem_or_eq_of_mem_set ht with ht' | rfl
        · exact h t ht'
        · rfl
    · rw [if_neg hc] at ht
      exact h t ht

theorem interpGo_mem_both (fuel : Nat) :
    ∀ (i : Nat) (res : List AlignedToken),
      (∀ t ∈ res, t.start.isSome = t.«end».isSome) →
      ∀ t ∈ interpGo fuel i res, t.start.isSome = t.«end».isSome := by
  induction fuel with
  | zero => intro i res h t ht; exact h t ht
  | succ fuel ih =>
    intro i res h t ht
    exact ih (i + 1) (interpAt res i) (interpAt_mem_both res i h) t ht

theorem interpAt_get_some_start (res : List AlignedToken) (i j : Nat) (t : AlignedToken)
    (hj : res.get? j = some t) (hs : t.start.isSome = true) :
    (interpAt res i).get? j = some t := by
  by_cases hij : i = j
  · subst hij
    rw [(interpAt_eq_of_get res i).2 t hj]
    have hcond : ¬(t.isPunctuation = false ∧ t.start = none) := by
      rintro ⟨-, h0⟩
      rw [h0] at hs
      cases hs
    rw [if_neg hcond]
    exact hj
  · rw [interpAt_get_ne res i j hij]
    exact hj

theorem interpGo_get_some_start (fuel : Nat) :
    ∀ (i : Nat) (res : List AlignedToken) (j : Nat) (t : AlignedToken),
      res.get? j = some t → t.start.isSome = true →
      (interpGo fuel i res).get? j = some t := by
  induction fuel with
  | zero => intro i res j t hj _; exact hj
  | succ fuel ih =>
    intro i res j t hj hs
    exact ih (i + 1) (interpAt res i) j t (interpAt_get_some_start res i j t hj hs) hs

theorem interpAt_flags (res : List AlignedToken) (i j : Nat) (t : AlignedToken)
    (hj : res.get? j = some t) :
    ∃ t', (interpAt res i).get? j = some t' ∧
      t'.isPunctuation = t.isPunctuation ∧ t'.text = t.text := by
  by_cases hij : i = j
  · subst hij
    have hlen : i < res.length := by
      by_contra hn
      rw [List.get?_eq_none.mpr (by omega)] at hj
      cases hj
    rw [(interpAt_eq_of_get res i).2 t hj]
    by_cases hc : t.isPunctuation = false ∧ t.start = none
    · rw [if_pos hc]
      cases hb : backScanGo res i with
      | none =>
        cases hf : fwdScan res i with
        | none => exact ⟨t, hj, rfl, rfl⟩
        | some ns =>
          exact ⟨{ t with start := some (ratMax 0 (qsub ns (Rat.divInt 11 20))), «end» := some (qsub ns (Rat.divInt 1 20)) },
            by rw [List.get?_eq_getElem?, List.getElem?_set_eq_of_lt _ hlen], rfl, rfl⟩
      | some pe =>
        cases hf : fwdScan res i with
        | none =>
          exact ⟨{ t with start := some (qadd pe (Rat.divInt 1 20)), «end» := some (qadd (qadd pe (Rat.divInt 1 20)) (Rat.divInt 1 2)) },
            by rw [List.get?_eq_getElem?, List.getElem?_set_eq_of_lt _ hlen], rfl, rfl⟩
        | some ns =>
          exact ⟨{ t with start := some (qadd pe (Rat.divInt 1 20)), «end» := some (qadd (qadd pe (Rat.divInt 1 20)) (ratMin (qdiv (qsub ns pe) 2) (Rat.divInt 1 2))) },
            by rw [List.get?_eq_getElem?, List.getElem?_set_eq_of_lt _ hlen], rfl, rfl⟩
    · rw [if_neg hc]
      exact ⟨t, hj, rfl, rfl⟩
  · rw [interpAt_get_ne res i j hij]
    exact ⟨t, hj, rfl, rfl⟩

theorem interpGo_flags (fuel : Nat) :
    ∀ (i : Nat) (res : List AlignedToken) (j : Nat) (t : AlignedToken),
      res.get? j = some t →
      ∃ t', (interpGo fuel i res).get? j = some t' ∧
        t'.isPunctuation = t.isPunctuation ∧ t'.text = t.text := by
  induction fuel with
  | zero => intro i res j t hj; exact ⟨t, hj, rfl, rfl⟩
  | succ fuel ih =>
    intro i res j t hj
    obtain ⟨t1, h1, hp1, hx1⟩ := interpAt_flags res i j t hj
    obtain ⟨t2, h2, hp2, hx2⟩ := ih (i + 1) (interpAt res i) j t1 h1
    exact ⟨t2, h2, hp2.trans hp1, hx2.trans hx1⟩

theorem fwdFind_isSome (l : List AlignedToken)
    (h : ∃ u ∈ l, u.isPunctuation = false ∧ u.start.isSome = true) :
    (fwdFind l).isSome = true := by
  induction l with
  | nil =>
    obtain ⟨u, hu, -⟩ := h
    cases hu
  | cons v vs ih =>
    rw [fwdFind]
    by_cases hv : v.isPunctuation = false ∧ v.start.isSome
    · rw [if_pos hv]
      exact hv.2
    · rw [if_neg hv]
      obtain ⟨u, hu, hcond⟩ := h
      rcases List.mem_cons.mp hu with rfl | hu'
      · exact absurd ⟨hcond.1, hcond.2⟩ hv
      · exact ih ⟨u, hu', hcond⟩

theorem backScanGo_isSome (l : List AlignedToken) :
    ∀ k, (∃ m u, m < k ∧ l.get? m = some u ∧ u.isPunctuation = false ∧
      u.«end».isSome = true) → (backScanGo l k).isSome = true := by
  intro k
  induction k with
  | zero =>
    rintro ⟨m, u, hm, -⟩
    omega
  | succ k ih =>
    rintro ⟨m, u, hm, hgu, hup, hue⟩
    cases hl : l.get? k with
    | none =>
      rw [backScanGo_cons_none hl]
      apply ih
      refine ⟨m, u, ?_, hgu, hup, hue⟩
      by_cases hmk : m = k
      · subst hmk
        rw [hl] at hgu
        cases hgu
      · omega
    | some v =>
      by_cases hv : v.isPunctuation = false ∧ v.«end».isSome
      · rw [backScanGo_cons_some hl, if_pos hv]
        exact hv.2
      · rw [backScanGo_cons_some hl, if_neg hv]
        apply ih
        by_cases hmk : m = k
        · subst hmk
          rw [hl] at hgu
          cases hgu
          exact absurd ⟨hup, hue⟩ hv
        · exact ⟨m, u, by omega, hgu, hup, hue⟩

theorem interpPass_length (res : List AlignedToken) :
    (interpPass res).length = res.length :=
  interpGo_length res.length 0 res

theorem interpPass_total (res : List AlignedToken)
    (hbon : ∀ t ∈ res, t.start.isSome = t.«end».isSome)
    (m : Nat) (um : AlignedToken) (hm : res.get? m = some um)
    (hmp : um.isPunctuation = false) (hms : um.start.isSome = true) :
    ∀ j t, (interpPass res).get? j = some t → t.isPunctuation = false →
      t.start.isSome = true := by
  intro j t hj hjp
  have hjlen : j < res.length := by
    by_contra hn
    rw [List.get?_eq_none.mpr (by rw [interpPass_length]; omega)] at hj
    cases hj
  obtain ⟨t0, h0⟩ : ∃ t0, res.get? j = some t0 := by
    cases hres : res.get? j with
    | none => exact absurd (List.get?_eq_none.mp hres) (by omega)
    | some t0 => exact ⟨t0, rfl⟩
  by_cases h0s : t0.start.isSome = true
  · have hpersist := interpGo_get_some_start res.length 0 res j t0 h0 h0s
    unfold interpPass at hj
    rw [hpersist] at hj
    cases hj
    exact h0s
  · have h0s' : t0.start = none := by
      cases hstart : t0.start with
      | none => rfl
      | some x => exact absurd (by rw [hstart]; rfl) h0s
    have h0p : t0.isPunctuation = false := by
      obtain ⟨t', ht', hflag, -⟩ := interpGo_flags res.length 0 res j t0 h0
      have hj2 := hj
      unfold interpPass at hj2
      rw [ht'] at hj2
      cases hj2
      rw [← hflag]
      exact hjp
    have hs : (interpGo j 0 res).get? j = some t0 := by
      rw [stateAt_get_ge res j j (le_refl j)]
      exact h0
    have hdec := interpPass_get_decomp res j hjlen
    have hstep := (interpAt_eq_of_get (interpGo j 0 res) j).2 t0 hs
    rw [if_pos ⟨h0p, h0s'⟩] at hstep
    have hlen2 : j < (interpGo j 0 res).length := by
      rw [interpGo_length]
      exact hjlen
    have hmj : m ≠ j := by
      rintro rfl
      rw [hm] at h0
      cases h0
      rw [h0s'] at hms
      cases hms
    by_cases hmlt : m < j
    · have hum_s : (interpGo j 0 res).get? m = some um :=
        interpGo_get_some_start j 0 res m um hm hms
      have hum_e : um.«end».isSome = true := by
        rw [← hbon um (List.get?_mem hm)]
        exact hms
      have hback : (backScanGo (interpGo j 0 res) j).isSome = true :=
        backScanGo_isSome _ j ⟨m, um, hmlt, hum_s, hmp, hum_e⟩
      obtain ⟨pe, hpe⟩ := Option.isSome_iff_exists.mp hback
      rw [hpe] at hstep
      cases hfs : fwdScan (interpGo j 0 res) j with
      | some ns =>
        rw [hfs] at hstep
        rw [hdec, hstep, List.get?_eq_getElem?, List.getElem?_set_eq_of_lt _ hlen2] at hj
        cases hj
        rfl
      | none =>
        rw [hfs] at hstep
        rw [hdec, hstep, List.get?_eq_getElem?, List.getElem?_set_eq_of_lt _ hlen2] at hj
        cases hj
        rfl
    · have humem : um ∈ (interpGo j 0 res).drop (j + 1) := by
        have hget : ((interpGo j 0 res).drop (j + 1)).get? (m - (j + 1)) = some um := by
          rw [List.get?_drop, show j + 1 + (m - (j + 1)) = m by omega,
            stateAt_get_ge res j m (by omega)]
          exact hm
        exact List.get?_mem hget
      have hfwd : (fwdScan (interpGo j 0 res) j).isSome = true := by
        unfold fwdScan
        exact fwdFind_isSome _ ⟨um, humem, hmp, hms⟩
      obtain ⟨ns, hns⟩ := Option.isSome_iff_exists.mp hfwd
      rw [hns] at hstep
      cases hbs : backScanGo (interpGo j 0 res) j with
      | some pe =>
        rw [hbs] at hstep
        rw [hdec, hstep, List.get?_eq_getElem?, List.getElem?_set_eq_of_lt _ hlen2] at hj
        cases hj
        rfl
      | none =>
        rw [hbs] at hstep
        rw [hdec, hstep, List.get?_eq_getElem?, List.getElem?_set_eq_of_lt _ hlen2] at hj
        cases hj
        rfl

theorem chapterAlignedTokens_eq (ch : Chapter) (wts : List WordTimestamp) :
    chapterAlignedTokens ch wts = interpPass (alignPre ch wts) := by
  unfold chapterAlignedTokens
  by_cases h : tokenize (chapterText ch) = []
  · rw [if_pos h]
    unfold alignPre
    rw [h]
    rfl
  · rw [if_neg h]

/-- C10: after the pass, a word token's `start` is defined exactly when its
`end` is (both are assigned together everywhere); and if at least one word
token received a diff timestamp, every word token in the chapter ends up
timed — word tokens stay untimed only when nothing matched at all. -/
theorem timing_all_or_nothing (ch : Chapter) (wts : List WordTimestamp) :
    (∀ t ∈ chapterAlignedTokens ch wts, t.start.isSome = t.«end».isSome) ∧
    ((∃ u ∈ alignPre ch wts, u.isPunctuation = false ∧ u.start.isSome = true) →
      ∀ t ∈ chapterAlignedTokens ch wts, t.isPunctuation = false →
        t.start.isSome = true) := by
  have hbon : ∀ t ∈ alignPre ch wts, t.start.isSome = t.«end».isSome :=
    fun t ht => buildResult_both _ _ _ t ht
  rw [chapterAlignedTokens_eq]
  constructor
  · intro t ht
    exact interpGo_mem_both _ _ _ hbon t ht
  · rintro ⟨u, hu, hup, hus⟩ t ht htp
    obtain ⟨mIdx, hmIdx⟩ := List.get?_of_mem hu
    obtain ⟨jIdx, hjIdx⟩ := List.get?_of_mem ht
    exact interpPass_total (alignPre ch wts) hbon mIdx u hmIdx hup hus jIdx t hjIdx htp

/-- C10 (witness): on the worked example, `"hello"` is diff-timed, and all
three word tokens come out timed. -/
theorem timing_all_or_nothing_witness :
    ∀ t ∈ chapterAlignedTokens exampleChapter exampleTimestamps,
      t.isPunctuation = false → t.start.isSome = true :=
  (timing_all_or_nothing exampleChapter exampleTimestamps).2
    ⟨⟨"hello".toList, some 0, some (Rat.divInt 2 5), false⟩, by decide, rfl, rfl⟩

/-! ## C7 — defensive totality / degraded modes -/

theorem set_get_self {α} (l : List α) (i : Nat) (a : α) (h : l.get? i = some a) :
    l.set i a = l := by
  apply List.ext_get?
  intro n
  by_cases hn : n = i
  · subst hn
    rw [List.get?_eq_getElem?,
      List.getElem?_set_eq_of_lt _ (get?_isSome_lt (by rw [h]; rfl))]
    exact h.symm
  · exact List.get?_set_ne _ _ (fun he => hn he.symm)

theorem interpAt_map_shape (res : List AlignedToken) (i : Nat) :
    (interpAt res i).map (fun t => (t.text, t.isPunctuation)) =
      res.map (fun t => (t.text, t.isPunctuation)) := by
  cases hres : res.get? i with
  | none => rw [(interpAt_eq_of_get res i).1 hres]
  | some t =>
    rw [(interpAt_eq_of_get res i).2 t hres]
    by_cases hc : t.isPunctuation = false ∧ t.start = none
    · rw [if_pos hc]
      cases hb : backScanGo res i <;> cases hf : fwdScan res i
      · rfl
      all_goals
        rw [List.map_set]
        exact set_get_self _ _ _ (by rw [List.get?_map, hres]; rfl)
    · rw [if_neg hc]

theorem interpGo_map_shape (fuel : Nat) :
    ∀ (i : Nat) (res : List AlignedToken),
      (interpGo fuel i res).map (fun t => (t.text, t.isPunctuation)) =
        res.map (fun t => (t.text, t.isPunctuation)) := by
  induction fuel with
  | zero => intro i res; rfl
  | succ fuel ih =>
    intro i res
    rw [interpGo, ih, interpAt_map_shape]

theorem buildResult_shape :
    ∀ (ts : List Token) (m : List (Nat × (ℚ × ℚ))) (wc : Nat),
      (buildResult ts m wc).map (fun t => (t.text, t.isPunctuation)) =
        ts.map (fun tok => (tok.text, tok.isPunctuation)) := by
  intro ts
  induction ts with
  | nil => intro m wc; rfl
  | cons tok rest ih =>
    intro m wc
    by_cases hp : tok.isPunctuation
    · rw [buildResult, if_pos hp, List.map_cons, List.map_cons, ih, hp]
    · rw [buildResult, if_neg hp]
      cases hl : lookupMap m wc with
      | some v =>
        obtain ⟨s, e⟩ := v
        rw [List.map_cons, List.map_cons, ih]
        have : tok.isPunctuation = false := by
          cases hv : tok.isPunctuation
          · rfl
          · exact absurd hv hp
        rw [this]
      | none =>
        rw [List.map_cons, List.map_cons, ih]
        have : tok.isPunctuation = false := by
          cases hv : tok.isPunctuation
          · rfl
          · exact absurd hv hp
        rw [this]

theorem gwwpGo_no_timestamps :
    ∀ (toks : List (List Char)) (ti : Nat) (t : AlignedToken),
      t ∈ getWordsWithPunctuationGo [] toks ti →
      t.start = none ∧ t.«end» = none := by
  intro toks
  induction toks with
  | nil => intro ti t ht; cases ht
  | cons tok rest ih =>
    intro ti t ht
    by_cases hp : tok.all isPunct2Char
    · rw [getWordsWithPunctuationGo, if_pos hp] at ht
      rcases List.mem_cons.mp ht with rfl | ht'
      · exact ⟨rfl, rfl⟩
      · exact ih ti t ht'
    · rw [getWordsWithPunctuationGo, if_neg hp] at ht
      rcases List.mem_cons.mp ht with rfl | ht'
      · exact ⟨rfl, rfl⟩
      · exact ih ti t ht'

/-- C7: the engine is total and defensive. Empty inputs are valid zero-length
cases: the tokenizer and the full-transcript aligner map empty text to the
empty token list; with an empty timestamp list every word token simply stays
untimed; and for every chapter and timestamp list the pipeline returns a
token list with exactly the tokenizer's texts and punctuation flags (worst
case degraded, never an error — every function is total by construction). -/
theorem defensive_totality :
    (tokenize [] = []) ∧
    (∀ wts, getWordsWithPunctuation [] wts = []) ∧
    (∀ (text : List Char) t, t ∈ getWordsWithPunctuation text [] →
      t.start = none ∧ t.«end» = none) ∧
    (∀ (ch : Chapter) (wts : List WordTimestamp),
      (chapterAlignedTokens ch wts).map (fun t => (t.text, t.isPunctuation)) =
        (tokenize (chapterText ch)).map (fun tok => (tok.text, tok.isPunctuation))) := by
  refine ⟨rfl, fun wts => rfl, ?_, ?_⟩
  · intro text t ht
    exact gwwpGo_no_timestamps (scanTokens text) 0 t ht
  · intro ch wts
    rw [chapterAlignedTokens_eq]
    show (interpGo _ 0 _).map _ = _
    rw [interpGo_map_shape]
    exact buildResult_shape _ _ _

/-- C7 (witness): the degraded-mode facts at concrete inputs. -/
theorem defensive_totality_witness :
    (⟨"hi".toList, none, none, false⟩ : AlignedToken).start = none ∧
    (⟨"hi".toList, none, none, false⟩ : AlignedToken).«end» = none :=
  defensive_totality.2.2.1 "hi !".toList ⟨"hi".toList, none, none, false⟩ (by decide)

/-! ## C8 — determinism -/

/-- C8: the alignment computation is a pure function of
`(chapters, wordTimestamps)`: equal inputs produce the identical
`AlignedToken` sequences (the embedding is deterministic by construction;
nothing in the pipeline depends on hidden state). -/
theorem chapterTokensMap_deterministic (chapters chapters' : List Chapter)
    (wts wts' : List WordTimestamp) (h1 : chapters = chapters') (h2 : wts = wts') :
    chapterTokensMap chapters wts = chapterTokensMap chapters' wts' := by
  rw [h1, h2]

/-- C8 (witness). -/
theorem chapterTokensMap_deterministic_witness :
    chapterTokensMap [exampleChapter] exampleTimestamps =
      chapterTokensMap [exampleChapter] exampleTimestamps :=
  chapterTokensMap_deterministic [exampleChapter] [exampleChapter]
    exampleTimestamps exampleTimestamps rfl rfl

end VoiceSharer
